import Mathlib

/-!
Verification of the ZeldasAdventureExtractor decoding core.

This file gives a shallow embedding of the Python sources
(`struct_stream.py`, `za_filesystem.py`, `za_images.py`,
`cdi_filesystem.py`) and proves or refutes the frozen claims about them.

Conventions of the embedding:
* Python `bytes` values become `List Nat` (each entry a byte value).
* A `StructStream` is its buffer plus an integer cursor.  The cursor is an
  `Int` because `takeRaw` advances it without clamping, so it can in
  principle move below zero or past the end, exactly as in the source.
* Python slice semantics (`data[a:b]` with clamping and negative-index
  wrap-around) are modelled by `pyslice`.
* Fallible operations (`struct.unpack` on a short buffer, `assert`,
  `IndexError`) return `Option`, with `none` for the Python exception.
* All streams in this repository are built with `endianPrefix=">"`, so the
  fixed-width readers below decode big-endian.  A multi-field read such as
  `take("III")` is modelled as successive 4-byte reads of the same bytes;
  this has the same value, final cursor and failure condition as the single
  `struct.unpack` call (which demands the exact total byte count).
-/

namespace ZAE


abbrev Byte := Nat

/-- Normalisation of one Python slice endpoint against a list of length
`n`: negative indices count from the end (clamped at 0), nonnegative ones
are clamped at `n`. -/
def pyIdx (n : Nat) (i : Int) : Nat :=
  if i < 0 then ((n : Int) + i).toNat else min i.toNat n

/-- Python `l[a:b]`. -/
def pyslice (l : List α) (a b : Int) : List α :=
  (l.take (pyIdx l.length b)).drop (pyIdx l.length a)

/-- Python `l[a:b]` for nonnegative endpoints. -/
def sliceN (l : List α) (a b : Nat) : List α :=
  (l.take b).drop a

/-- `StructStream` from `struct_stream.py`: an immutable byte buffer plus a
mutable read position.  The `endianPrefix` field is omitted: every stream
in this repository is big-endian. -/
structure SStream where
  data : List Byte
  cursor : Int
deriving Repr, DecidableEq

/-- `StructStream.__len__`: `max(0, len(self._data) - self._cursor)`, the
remaining byte count. -/
def ssLen (s : SStream) : Nat :=
  ((s.data.length : Int) - s.cursor).toNat

/-- `StructStream.peekRaw(count, fillZeros)`:
`ret = self._data[self._cursor:self._cursor + count]`, then, when
`fillZeros` is set and the result is short, pad with `b'0'` — the byte
0x30 = 48, the ASCII digit zero, not the zero byte. -/
def peekRaw (s : SStream) (count : Int) (fillZeros : Bool) : List Byte :=
  let ret := pyslice s.data s.cursor (s.cursor + count)
  if fillZeros ∧ (ret.length : Int) < count then
    ret ++ List.replicate (count - (ret.length : Int)).toNat 48
  else
    ret

/-- `StructStream.takeRaw(count, fillZeros)`: a `peekRaw` followed by
`self._cursor += count` (no clamping). -/
def takeRaw (s : SStream) (count : Int) (fillZeros : Bool) : List Byte × SStream :=
  (peekRaw s count fillZeros, ⟨s.data, s.cursor + count⟩)

/-- `StructStream.skip(count)`: `self._cursor = max(0, self._cursor + count)`. -/
def ssSkip (s : SStream) (count : Int) : SStream :=
  ⟨s.data, max 0 (s.cursor + count)⟩

/-- `StructStream.fork(skip)`: a new stream over
`self._data[self._cursor + skip:]` with cursor 0. -/
def ssFork (s : SStream) (skipBytes : Int) : SStream :=
  ⟨pyslice s.data (s.cursor + skipBytes) (s.data.length : Int), 0⟩

/-- `StructStream.takeFork(count)`: `takeRaw` the bytes (advancing the
parent) and wrap them in a fresh stream.  The repository never passes
`fillZeros` here, so it is fixed to `false`. -/
def takeFork (s : SStream) (count : Int) : SStream × SStream :=
  let r := takeRaw s count false
  (⟨r.1, 0⟩, r.2)

/-- The exact-length read underlying `peek`/`take` with a fixed-width
format string: `struct.unpack` raises unless the buffer returned by
`peekRaw` has exactly the format's size, which happens exactly when the
stream holds fewer than `n` remaining bytes. -/
def peekBytes (s : SStream) (n : Nat) : Option (List Byte) :=
  let r := peekRaw s n false
  if r.length = n then some r else none

/-- Big-endian integer value of a byte list. -/
def wordBE (l : List Byte) : Nat :=
  l.foldl (fun acc b => acc * 256 + b) 0

/-- `take("I")` on a big-endian stream: 4 bytes, advancing by 4. -/
def takeU32 (s : SStream) : Option (Nat × SStream) :=
  (peekBytes s 4).map (fun b => (wordBE b, ⟨s.data, s.cursor + 4⟩))

/-- `take("H")` on a big-endian stream: 2 bytes, advancing by 2. -/
def takeU16 (s : SStream) : Option (Nat × SStream) :=
  (peekBytes s 2).map (fun b => (wordBE b, ⟨s.data, s.cursor + 2⟩))

/-- `takeNullTermString()` (default `includeTerminator=False`): clamp the
cursor to `max(cursor, 0)`, return the bytes strictly before the first
zero byte at or after it (or the whole remainder when no zero exists) and
advance past the terminator (or to the end). -/
def takeNullTerm (s : SStream) : List Byte × SStream :=
  let c := (max 0 s.cursor).toNat
  match (s.data.drop c).findIdx? (fun b => b = 0) with
  | some k => ((s.data.drop c).take k, ⟨s.data, (c : Int) + k + 1⟩)
  | none => (s.data.drop c, ⟨s.data, (c : Int) + ((s.data.drop c).length : Int)⟩)

/-- The remaining bytes of a stream, as seen by any subsequent read. -/
def restOf (s : SStream) : List Byte :=
  pyslice s.data s.cursor (s.data.length : Int)

/-! ### `cdi_filesystem.py`: `CdiSector.__init__` -/

/-- The mutually exclusive payload kind of a Mode-2 sector
(`CdiSector.kind`). -/
inductive SectorKind where
  | empty
  | dataK
  | audio
  | video
deriving Repr, DecidableEq

/-- `CdiSector`: the decoded sector.  Fields that exist only on Mode-2
sectors are `Option`s, `none` standing for Python `None`. -/
structure CdiSector where
  mode : Nat
  file : Option Byte
  channel : Option Byte
  coding : Option Byte
  isEof : Option Bool
  isRealtime : Option Bool
  form : Option Nat
  isTrigger : Option Bool
  kind : Option SectorKind
  isEndOfRecord : Option Bool
  data : List Byte
deriving Repr, DecidableEq

/-- Python indexing `l[i]` for a nonnegative index: `some` the element,
`none` for the `IndexError` past the end. -/
def pyByteAt : List Byte → Nat → Option Byte
  | [], _ => none
  | a :: _, 0 => some a
  | _ :: t, n + 1 => pyByteAt t n

/-- The payload-kind computation of `CdiSector.__init__`: start from
`empty`, set `data` on bit 3, then on bit 2 assert the kind is still
`empty` before setting `audio`, and likewise for bit 1 and `video`;
`none` models a failed assert (more than one kind bit set). -/
def kindOfSubmode (submode : Nat) : Option SectorKind :=
  let k1 := if submode.land 8 ≠ 0 then SectorKind.dataK else SectorKind.empty
  match (if submode.land 4 ≠ 0 then
           (if k1 = SectorKind.empty then some SectorKind.audio else none)
         else some k1) with
  | none => none
  | some k2 =>
      if submode.land 2 ≠ 0 then
        (if k2 = SectorKind.empty then some SectorKind.video else none)
      else some k2

/-- `CdiSector.__init__`.  `mode1` tells whether the metadata said
`"MODE1"` (any other value asserts `"MODE2"` in the source).  `none`
models the Python exceptions: the failed subheader-duplication assert,
`IndexError` on a too-short `rawData`, and the asserts that at most one
payload-kind bit is set in the submode byte. -/
def cdiSectorInit (mode1 : Bool) (rawData : List Byte) : Option CdiSector :=
  if mode1 then
    some { mode := 1, file := none, channel := none, coding := none, isEof := none,
           isRealtime := none, form := none, isTrigger := none, kind := none,
           isEndOfRecord := none, data := rawData }
  else
    if rawData.take 4 = sliceN rawData 4 8 then
      match pyByteAt rawData 0 with
      | none => none
      | some f =>
        match pyByteAt rawData 1 with
        | none => none
        | some ch =>
          match pyByteAt rawData 2 with
          | none => none
          | some submode =>
            match pyByteAt rawData 3 with
            | none => none
            | some cod =>
              let form := (submode.land 32) / 32 + 1
              match kindOfSubmode submode with
              | none => none
              | some k3 =>
                  some { mode := 2, file := some f, channel := some ch,
                         coding := some cod,
                         isEof := some (submode.land 128 != 0),
                         isRealtime := some (submode.land 64 != 0),
                         form := some form,
                         isTrigger := some (submode.land 16 != 0),
                         kind := some k3,
                         isEndOfRecord := some (submode.land 1 != 0),
                         data := if form = 1 then sliceN rawData 8 (8 + 2048)
                                 else sliceN rawData 8 (8 + 2324) }
    else none

/-! ### `za_filesystem.py`: `ResourceFileSystem` / `ResourceFileSystemFolder` -/

/-- The three per-media-kind size tables, keyed `"v"`/`"a"`/`"d"` in the
source. -/
inductive MKind where
  | v
  | a
  | d
deriving Repr, DecidableEq

/-- The sector payload kind that each media kind selects
(`getRecord`'s `kind` argument `"video"`/`"audio"`/`"data"`, whose first
letter recovers the `MKind`). -/
def kindOfM : MKind → SectorKind
  | MKind.v => SectorKind.video
  | MKind.a => SectorKind.audio
  | MKind.d => SectorKind.dataK

/-- `ResourceFileSystemFolder`: constructor state after `__init__`.  The
three size lists start empty and are filled in by `handleSizeArray`. -/
structure RFolder where
  channel : Nat
  blockOffset : Nat
  videoSizesIndex : Nat
  audioSizesIndex : Nat
  dataSizesIndex : Nat
  videoSizes : List Byte := []
  audioSizes : List Byte := []
  dataSizes : List Byte := []
  sectors : List CdiSector := []
deriving Repr, DecidableEq

/-- `ResourceFileSystemFolder._getSizeIndex`. -/
def getSizeIndexK (k : MKind) (f : RFolder) : Nat :=
  match k with
  | MKind.v => f.videoSizesIndex
  | MKind.a => f.audioSizesIndex
  | MKind.d => f.dataSizesIndex

/-- `ResourceFileSystemFolder._setSizes`. -/
def setSizesK (k : MKind) (f : RFolder) (sz : List Byte) : RFolder :=
  match k with
  | MKind.v => { f with videoSizes := sz }
  | MKind.a => { f with audioSizes := sz }
  | MKind.d => { f with dataSizes := sz }

/-- `ResourceFileSystemFolder._getSizes`. -/
def sizesOfK (k : MKind) (f : RFolder) : List Byte :=
  match k with
  | MKind.v => f.videoSizes
  | MKind.a => f.audioSizes
  | MKind.d => f.dataSizes

/-- The sort key comparison used by `ResourceFileSystem.__init__`:
`key=lambda f: self.subFiles[f].blockOffset`. -/
def blockLe (x y : RFolder) : Bool :=
  x.blockOffset ≤ y.blockOffset

/-- `ResourceFileSystem.__init__`, sorting step:
`subFileNames.sort(key=lambda f: self.subFiles[f].blockOffset)` — a stable
sort of the folders by their first block index. -/
def sortFolders (fs : List RFolder) : List RFolder :=
  fs.mergeSort blockLe

/-- `ResourceFileSystem.__init__`, sector-range assignment over the
blockOffset-sorted folder list: every folder except the last receives
`realFile.sectors[self.blockOffset:nextSubFile.blockOffset]`, the last
receives `realFile.sectors[self.blockOffset:]`.  The result lists the
assigned `sectors` per folder, positionally. -/
def assignSectors : List RFolder → List CdiSector → List (List CdiSector)
  | [], _ => []
  | [f], secs => [secs.drop f.blockOffset]
  | f :: g :: rest, secs =>
      sliceN secs f.blockOffset g.blockOffset :: assignSectors (g :: rest) secs

/-- `ResourceFileSystem.__init__.handleSizeArray` for one media kind over
the blockOffset-sorted folder list.  Mirrors the source loop exactly: a
folder whose own start index is `0xFFFF` makes the whole function
*return* (all later folders keep their previous, empty, size lists); the
end index is the immediately next folder's start index, with `0xFFFF`
there replaced by the array length (not skipped past). -/
def handleSizeArray (k : MKind) (sizes : List Byte) : List RFolder → List RFolder
  | [] => []
  | f :: rest =>
      if getSizeIndexK k f = 65535 then f :: rest
      else
        let nextIndex :=
          match rest with
          | [] => sizes.length
          | g :: _ => if getSizeIndexK k g = 65535 then sizes.length
                      else getSizeIndexK k g
        setSizesK k f (sliceN sizes (getSizeIndexK k f) nextIndex)
          :: handleSizeArray k sizes rest

/-- `ResourceFileSystemFolder.getBytes(start, end, kind)`: filter this
folder's sectors to the requested payload kind (or keep all when `kind`
is `None`), slice the *filtered* list, and concatenate the payloads. -/
def getBytes (f : RFolder) (start endI : Nat) (kind : Option SectorKind) : List Byte :=
  let filtered := f.sectors.filter (fun s => kind.isNone || kind == s.kind)
  ((sliceN filtered start endI).map CdiSector.data).flatten

/-- `ResourceFileSystemFolder.getRecord(index, kind)` (the memoisation
cache is omitted: the computation is pure).  `none` models the Python
`IndexError` when `index` is out of range of the size list. -/
def getRecord (f : RFolder) (index : Nat) (k : MKind) : Option (List Byte) :=
  let sizes := sizesOfK k f
  match sizes[index]? with
  | none => none
  | some size =>
      let start := (sizes.take index).sum
      some (getBytes f start (start + size) (some (kindOfM k)))

/-- A concrete full-length form-1 Mode-2 capture for the C9 witness. -/
def c9rawForm1 : List Byte :=
  [1, 2, 0, 4, 1, 2, 0, 4] ++ List.replicate 2048 9

/-- The sector `cdiSectorInit` produces from `c9rawForm1`. -/
def c9secForm1 : CdiSector :=
  { mode := 2, file := some 1, channel := some 2, coding := some 4,
    isEof := some false, isRealtime := some false, form := some 1,
    isTrigger := some false, kind := some SectorKind.empty,
    isEndOfRecord := some false, data := sliceN c9rawForm1 8 2056 }

/-! ### Claim C1: per-kind size-table slicing -/

/-- The end index the source actually uses for folder `i` of the sorted
list: the next folder's start index for the same kind, except that a next
start index of `0xFFFF` — and the absence of a next folder — both mean
the end of the size array (no skipping past the sentinel occurs). -/
def sizeEndIndex (k : MKind) (sizes : List Byte) (fs : List RFolder) (i : Nat) : Nat :=
  match fs[i + 1]? with
  | none => sizes.length
  | some g => if getSizeIndexK k g = 65535 then sizes.length else getSizeIndexK k g

/-- A folder fixture for C1: `blockOffset` is the position, `idx` the
video start index; the other kinds are absent. -/
def c1f (b idx : Nat) : RFolder :=
  { channel := 0, blockOffset := b, videoSizesIndex := idx,
    audioSizesIndex := 65535, dataSizesIndex := 65535 }

/-- The blockOffset-sorted folders of the claim's scenario: per-kind
start indices `[0, 5, 0xFFFF, 12]` for kind `v`. -/
def c1folders : List RFolder := [c1f 0 0, c1f 1 5, c1f 2 65535, c1f 3 12]

/-- Folders for the C2 witness, deliberately unsorted. -/
def c2folders : List RFolder := [c1f 3 0, c1f 0 0, c1f 1 0]

/-- A Mode-2 sector fixture carrying a given payload kind and payload. -/
def c8sec (kd : SectorKind) (d : List Byte) : CdiSector :=
  { mode := 2, file := some 0, channel := some 0, coding := some 0,
    isEof := some false, isRealtime := some false, form := some 1,
    isTrigger := some false, kind := some kd, isEndOfRecord := some false,
    data := d }

/-- A folder whose sectors interleave an audio sector between video
sectors; video record sizes `[2, 1]` count video sectors only. -/
def c8folder : RFolder :=
  { channel := 0, blockOffset := 0, videoSizesIndex := 0,
    audioSizesIndex := 65535, dataSizesIndex := 65535,
    videoSizes := [2, 1],
    sectors := [c8sec SectorKind.video [1], c8sec SectorKind.audio [9],
                c8sec SectorKind.video [2, 3], c8sec SectorKind.video [4]] }

/-! ### `za_filesystem.py`: `ResourceTreeSet` -/

/-- Splitting a byte list into big-endian 4-byte words, as
`struct.unpack("{n}I")` does once the exact byte count is present. -/
def chunksToU32 : List Byte → List Nat
  | a :: b :: c :: d :: rest => wordBE [a, b, c, d] :: chunksToU32 rest
  | _ => []

/-- `take("{n}I")`: one atomic read of `4*n` bytes decoded as `n`
big-endian words, advancing by `4*n`; fails when fewer bytes remain. -/
def takeU32s (s : SStream) (n : Nat) : Option (List Nat × SStream) :=
  (peekBytes s (4 * n)).map (fun bs => (chunksToU32 bs, ⟨s.data, s.cursor + 4 * n⟩))

/-- The decoded state of a `ResourceTreeSet`.  `elementOffsets` mirrors
the constructor's local `elementOffsets` list so the slicing can be
specified; the source discards it after building `elements`. -/
structure TreeSet where
  size : Nat
  count : Nat
  baseOffset : Nat
  listOffset : Nat
  elementOffsets : List Nat
  elements : List SStream
deriving Repr, DecidableEq

/-- The element-building loop of `ResourceTreeSet.__init__`: for each
offset, `elementStart = listData.copy().skip(currentOffset)`; a non-last
element is `takeFork(nextOffset - currentOffset)`; the last element is
`takeFork((baseOffset - listOffset) - currentOffset)` when
`listOffset < baseOffset`, and the bare `elementStart` (rest of the
buffer) otherwise. -/
def buildSetElems (listData : SStream) (listOffset baseOffset : Nat) :
    List Nat → List SStream
  | [] => []
  | [off] =>
      let elementStart := ssSkip listData (off : Int)
      if listOffset < baseOffset then
        [(takeFork elementStart ((baseOffset : Int) - (listOffset : Int) - (off : Int))).1]
      else [elementStart]
  | off :: off2 :: rest =>
      let elementStart := ssSkip listData (off : Int)
      (takeFork elementStart ((off2 : Int) - (off : Int))).1
        :: buildSetElems listData listOffset baseOffset (off2 :: rest)

/-- `ResourceTreeSet.__init__`: read `(tag, size)` and assert `tag == 2`,
read `(count, baseOffset, listOffset)`, re-anchor `baseData`/`listData`
on the original stream position (the `size` field is *not* used to bound
the frame), read the offset table from `baseData` (`count > 1` as one
array read, `count == 1` as a scalar read, `count == 0` as no read), and
build the elements from `listData`. -/
def setDecode (s0 : SStream) : Option TreeSet :=
  match takeU32 s0 with
  | none => none
  | some (tag, s1) =>
    match takeU32 s1 with
    | none => none
    | some (size, s2) =>
      if tag = 2 then
        match takeU32 s2 with
        | none => none
        | some (count, s3) =>
          match takeU32 s3 with
          | none => none
          | some (baseOffset, s4) =>
            match takeU32 s4 with
            | none => none
            | some (listOffset, _s5) =>
              let baseData := ssSkip s0 (baseOffset : Int)
              let listData := ssSkip s0 (listOffset : Int)
              match (if count > 1 then takeU32s baseData count
                     else if count = 1 then
                       (takeU32 baseData).map (fun p => ([p.1], p.2))
                     else some ([], baseData)) with
              | none => none
              | some (offs, _) =>
                  some ⟨size, count, baseOffset, listOffset, offs,
                        buildSetElems listData listOffset baseOffset offs⟩
      else none

/-! ### `za_images.py`: `unpackPointerArray` -/

/-- `PointerArray` from `za_images.py`. -/
structure PointerArray where
  elements : List SStream
  unusedPointer : Nat
deriving Repr, DecidableEq

/-- `[stream.take("I") for _ in range(length)]`: `n` successive 4-byte
reads, failing as soon as one runs past the end. -/
def takeNU32 : Nat → SStream → Option (List Nat × SStream)
  | 0, s => some ([], s)
  | n + 1, s =>
      match takeU32 s with
      | none => none
      | some (v, s2) =>
          match takeNU32 n s2 with
          | none => none
          | some (vs, s3) => some (v :: vs, s3)

/-- The element loop of `unpackPointerArray`: a `takeFork` of
`offsets[i+1] - offsets[i]` bytes per adjacent pair, consuming the stream
sequentially, then one final `stream.fork()` holding the remainder. -/
def paElems : SStream → List Nat → List SStream
  | s, o1 :: o2 :: rest =>
      let p := takeFork s ((o2 : Int) - (o1 : Int))
      p.1 :: paElems p.2 (o2 :: rest)
  | s, _ => [ssFork s 0]

/-- `unpackPointerArray`: read `(length, unusedPointer)`, then `length`
4-byte offsets, then the length-delimited elements plus the final
remainder element.  `unusedPointer` is retained, never validated. -/
def unpackPointerArray (s0 : SStream) : Option PointerArray :=
  match takeU32 s0 with
  | none => none
  | some (len0, s1) =>
    match takeU32 s1 with
    | none => none
    | some (unused, s2) =>
      match takeNU32 len0 s2 with
      | none => none
      | some (offs, s3) => some ⟨paElems s3 offs, unused⟩

/-! ### `za_filesystem.py`: `ResourceTree` dispatch, `Node`, `Array` -/

/-- A key of a `ResourceTreeNode` child map: an integer when no name list
is present, else an ASCII name (kept as its byte list). -/
inductive RKey where
  | num (n : Nat)
  | name (s : List Byte)
deriving Repr, DecidableEq

/-- Decoded resource trees: the generic base node (unknown tag), the
keyed Node, the fixed-stride Array and the variable-stride Set. -/
inductive RTree where
  | base (tag : Nat) (size : Nat)
  | node (size : Nat) (hasNames : Bool) (children : List (RKey × RTree))
  | arr (size : Nat) (elementCount : Nat) (elementSize : Nat)
      (elements : List SStream)
  | set (info : TreeSet)

/-- `peek("I")`: 4 bytes without consuming. -/
def peekU32 (s : SStream) : Option Nat :=
  (peekBytes s 4).map wordBE

/-- `bytes.decode('ascii')`: succeeds exactly when every byte is below
128. -/
def asciiDecode (l : List Byte) : Option (List Byte) :=
  if l.all (fun b => b < 128) then some l else none

/-- The name/child combination loop of `ResourceTreeNode.__init__`:
`for i in range(len(names)): children[names[i]] = children[i]`.  It walks
the names positionally, fails (`IndexError`) as soon as the child list is
exhausted, and never looks at children beyond the name count.  The
resulting Python dict is modelled by the insertion sequence. -/
def combineChildren : List RKey → List RTree → Option (List (RKey × RTree))
  | [], _ => some []
  | _ :: _, [] => none
  | nm :: ns, c :: cs =>
      match combineChildren ns cs with
      | none => none
      | some rest => some ((nm, c) :: rest)

/-- The name decoding of `ResourceTreeNode.__init__`:
`s.copy().takeNullTermString().decode('ascii')` per name-set element. -/
def decodeNames : List SStream → Option (List RKey)
  | [] => some []
  | e :: es =>
      match asciiDecode (takeNullTerm e).1 with
      | none => none
      | some bs =>
          match decodeNames es with
          | none => none
          | some rest => some (RKey.name bs :: rest)

/-- The element loop of `ResourceTreeArray.__init__`:
`[elementData.takeFork(self.elementSize) for _ in range(self.elementCount)]`,
consuming `elementData` sequentially. -/
def arrElems : Nat → SStream → Nat → List SStream × SStream
  | 0, s, _ => ([], s)
  | n + 1, s, stride =>
      let p := takeFork s (stride : Int)
      let r := arrElems n p.2 stride
      (p.1 :: r.1, r.2)

/-- `ResourceTreeArray.__init__`: read `(tag, size)`, assert `tag == 1`,
re-slice the frame to `size` (trustworthy here), read
`(elementCount, elementSize, offset)` and cut `elementCount` consecutive
`elementSize`-byte elements starting at `offset` in the frame. -/
def arrDecode (s0 : SStream) : Option RTree :=
  match takeU32 s0 with
  | none => none
  | some (tag, s1) =>
    match takeU32 s1 with
    | none => none
    | some (size, s2) =>
      if tag = 1 then
        match takeU32 s2 with
        | none => none
        | some (elementCount, s3) =>
          match takeU32 s3 with
          | none => none
          | some (elementSize, s4) =>
            match takeU32 s4 with
            | none => none
            | some (offset, _s5) =>
                let frame := (takeFork s0 (size : Int)).1
                let elementData := ssSkip (takeFork frame (size : Int)).1 (offset : Int)
                some (RTree.arr size elementCount elementSize
                      (arrElems elementCount elementData elementSize).1)
      else none

/-- `[ResourceTree.parseFromStream(s) for s in childListNode.elements]`,
abstracted over the element parser so the fuel recursion below stays
structural. -/
def parseListWith (p : SStream → Option RTree) : List SStream → Option (List RTree)
  | [] => some []
  | e :: es =>
      match p e with
      | none => none
      | some t =>
          match parseListWith p es with
          | none => none
          | some ts => some (t :: ts)

/-- `ResourceTree.parseFromStream` with explicit decode-depth fuel: peek
the tag without consuming; tag 0 decodes a Node (inlined
`ResourceTreeNode.__init__`), tag 1 an Array, tag 2 a Set, and any other
tag is tolerated as the generic base node (`take("II")`). -/
def parseFromStream : Nat → SStream → Option RTree
  | 0, _ => none
  | fuel + 1, s0 =>
    match peekU32 s0 with
    | none => none
    | some tag =>
      if tag = 0 then
        match takeU32 s0 with
        | none => none
        | some (tag2, s1) =>
          match takeU32 s1 with
          | none => none
          | some (size, s2) =>
            if tag2 = 0 then
              let frame := (takeFork s0 (size : Int)).1
              match takeU32 s2 with
              | none => none
              | some (_childCount, s3) =>
                match takeU32 s3 with
                | none => none
                | some (nameOff, s4) =>
                  match takeU32 s4 with
                  | none => none
                  | some (childOff, _s5) =>
                    let nameStream0 := ssSkip frame (nameOff : Int)
                    let childStream0 := ssSkip frame (childOff : Int)
                    let nameStream :=
                      if nameOff < childOff then
                        (takeFork nameStream0 ((childOff : Int) - (nameOff : Int))).1
                      else nameStream0
                    let childStream :=
                      if nameOff < childOff then childStream0
                      else (takeFork childStream0 ((nameOff : Int) - (childOff : Int))).1
                    match setDecode childStream with
                    | none => none
                    | some childSet =>
                      match parseListWith (fun e => parseFromStream fuel e)
                          childSet.elements with
                      | none => none
                      | some children =>
                        if nameOff = 0 then
                          match combineChildren
                              ((List.range children.length).map RKey.num)
                              children with
                          | none => none
                          | some entries => some (RTree.node size false entries)
                        else
                          match setDecode nameStream with
                          | none => none
                          | some nameSet =>
                            match decodeNames nameSet.elements with
                            | none => none
                            | some names =>
                              match combineChildren names children with
                              | none => none
                              | some entries => some (RTree.node size true entries)
            else none
      else if tag = 1 then arrDecode s0
      else if tag = 2 then (setDecode s0).map RTree.set
      else
        match takeU32 s0 with
        | none => none
        | some (t, s1) =>
          match takeU32 s1 with
          | none => none
          | some (sz, _) => some (RTree.base t sz)

/-- A concrete PointerArray byte fixture: count 2, trailing value 7,
offsets `[0, 3]`, then 5 payload bytes. -/
def c5data : List Byte :=
  [0, 0, 0, 2, 0, 0, 0, 7, 0, 0, 0, 0, 0, 0, 0, 3, 10, 11, 12, 13, 14]

/-- The PointerArray `unpackPointerArray` produces from `c5data`. -/
def c5res : PointerArray :=
  ⟨paElems ⟨c5data, (16 : Int)⟩ [0, 3], 7⟩

/-- The C3 fixture with `listOffset < baseOffset`: count 3, elements at
offset 20 (30 bytes), offset table `[0, 10, 25]` at `baseOffset = 50`. -/
def c3dataA : List Byte :=
  [0, 0, 0, 2, 0, 0, 0, 0, 0, 0, 0, 3, 0, 0, 0, 50, 0, 0, 0, 20]
    ++ (List.range 30).map (fun i => 100 + i)
    ++ [0, 0, 0, 0, 0, 0, 0, 10, 0, 0, 0, 25]

/-- The decoded Set of `c3dataA`. -/
def c3resA : TreeSet :=
  ⟨0, 3, 50, 20, [0, 10, 25],
    buildSetElems ⟨c3dataA, ((0 + 20 : Nat) : Int)⟩ 20 50 [0, 10, 25]⟩

/-- The C3 fixture with `listOffset ≥ baseOffset`: count 3, offset table
`[0, 10, 25]` at `baseOffset = 20`, elements from offset 32 to the end of
the 60-byte buffer. -/
def c3dataB : List Byte :=
  [0, 0, 0, 2, 0, 0, 0, 0, 0, 0, 0, 3, 0, 0, 0, 20, 0, 0, 0, 32]
    ++ [0, 0, 0, 0, 0, 0, 0, 10, 0, 0, 0, 25]
    ++ (List.range 28).map (fun i => 200 + i)

/-- The decoded Set of `c3dataB`. -/
def c3resB : TreeSet :=
  ⟨0, 3, 20, 32, [0, 10, 25],
    buildSetElems ⟨c3dataB, ((0 + 32 : Nat) : Int)⟩ 32 20 [0, 10, 25]⟩

/-! ### Claim C4: Node name/child list lengths -/

/-- The C4 fixture: a Node whose name Set holds 1 name (`"a"`) while its
child Set holds 2 children (unknown-tag 8-byte nodes).  Layout: node
header (20 bytes), child Set at frame offset 20 (44 bytes: header,
two 8-byte elements at its offset 20, offset table `[0, 8]` at its offset
36), name Set at frame offset 64 (26 bytes: header, name bytes `"a\0"` at
its offset 20, scalar offset 0 at its offset 22). -/
def c4data : List Byte :=
  [0, 0, 0, 0, 0, 0, 0, 90, 0, 0, 0, 2, 0, 0, 0, 64, 0, 0, 0, 20,
   0, 0, 0, 2, 0, 0, 0, 0, 0, 0, 0, 2, 0, 0, 0, 36, 0, 0, 0, 20,
   0, 0, 0, 7, 0, 0, 0, 0, 0, 0, 0, 7, 0, 0, 0, 0,
   0, 0, 0, 0, 0, 0, 0, 8,
   0, 0, 0, 2, 0, 0, 0, 0, 0, 0, 0, 1, 0, 0, 0, 22, 0, 0, 0, 20,
   97, 0,
   0, 0, 0, 0]

/-! ### Bridging lemmas between Python slices and plain list operations -/

theorem pyslice_coe (l : List α) (a b : Nat) :
    pyslice l (a : Int) (b : Int) = sliceN l a b := by
  simp only [pyslice, pyIdx, sliceN]
  have ha : ¬ ((a : Int) < 0) := by omega
  have hb : ¬ ((b : Int) < 0) := by omega
  rw [if_neg hb, if_neg ha]
  have h1 : ((b : Int)).toNat = b := by omega
  have h2 : ((a : Int)).toNat = a := by omega
  rw [h1, h2]
  rcases Nat.le_total b l.length with hbn | hbn
  · rw [Nat.min_eq_left hbn]
    rcases Nat.le_total a l.length with han | han
    · rw [Nat.min_eq_left han]
    · rw [Nat.min_eq_right han]
      have hL : (l.take b).length ≤ l.length := by
        simp [List.length_take]
      rw [List.drop_eq_nil_of_le hL, List.drop_eq_nil_of_le (Nat.le_trans hL han)]
  · rw [Nat.min_eq_right hbn, List.take_length, List.take_of_length_le hbn]
    rcases Nat.le_total a l.length with han | han
    · rw [Nat.min_eq_left han]
    · rw [Nat.min_eq_right han]
      rw [List.drop_eq_nil_of_le (Nat.le_refl _), List.drop_eq_nil_of_le han]

theorem length_sliceN (l : List α) (a b : Nat) :
    (sliceN l a b).length = min b l.length - a := by
  simp [sliceN, List.length_drop, List.length_take]

theorem ssLen_coe (data : List Byte) (c : Nat) :
    ssLen ⟨data, (c : Int)⟩ = data.length - c := by
  simp only [ssLen]
  omega

theorem peekRaw_noFill_coe (data : List Byte) (c n : Nat) :
    peekRaw ⟨data, (c : Int)⟩ (n : Int) false = sliceN data c (c + n) := by
  simp only [peekRaw, if_neg, Bool.false_eq_true, false_and, ite_false]
  have : (c : Int) + (n : Int) = ((c + n : Nat) : Int) := by push_cast; ring
  rw [this, pyslice_coe]

theorem length_peekRaw_noFill (data : List Byte) (c n : Nat) :
    (peekRaw ⟨data, (c : Int)⟩ (n : Int) false).length
      = min n (data.length - c) := by
  rw [peekRaw_noFill_coe, length_sliceN]
  omega

/-! ### Claims C6, C7, C10: cursor behaviour -/

/-- C6 (counterexample): the claim says every non-zero-padded read past
the end of the buffer fails, including `peekRaw`/`takeRaw`.  On the
two-byte buffer `[1, 2]` a raw read of 4 bytes does not fail: it silently
returns just the 2 remaining bytes. -/
theorem c6_counterexample :
    peekRaw ⟨[1, 2], (0 : Int)⟩ 4 false = [1, 2] ∧
      (peekRaw ⟨[1, 2], (0 : Int)⟩ 4 false).length ≠ 4 := by
  constructor
  · rfl
  · decide

/-- C6 (amended): fixed-width `peek`/`take` reads do fail exactly when
they extend past the end of the buffer (`struct.unpack` demands the exact
byte count), but `peekRaw` without zero-padding never fails: it returns
exactly the `min count remaining` bytes still available. -/
theorem c6_amended (data : List Byte) (c : Nat) (w n : Nat) :
    (peekBytes ⟨data, (c : Int)⟩ w = none ↔ ssLen ⟨data, (c : Int)⟩ < w) ∧
      (peekRaw ⟨data, (c : Int)⟩ (n : Int) false).length
        = min n (ssLen ⟨data, (c : Int)⟩) := by
  have hlen : ∀ m : Nat,
      (peekRaw ⟨data, (c : Int)⟩ (m : Int) false).length
        = min m (ssLen ⟨data, (c : Int)⟩) := by
    intro m
    rw [length_peekRaw_noFill, ssLen_coe]
  refine ⟨?_, hlen n⟩
  constructor
  · intro h
    by_contra hlt
    simp only [peekBytes] at h
    rw [hlen w] at h
    have : min w (ssLen ⟨data, (c : Int)⟩) = w := by omega
    simp [this] at h
  · intro h
    simp only [peekBytes]
    rw [hlen w]
    have : min w (ssLen ⟨data, (c : Int)⟩) ≠ w := by omega
    simp [this]

/-- C6 witness: instantiating the amended statement on the concrete
two-byte stream. -/
theorem c6_witness :
    (peekBytes ⟨[1, 2], ((0 : Nat) : Int)⟩ 4 = none ↔
        ssLen ⟨[1, 2], ((0 : Nat) : Int)⟩ < 4) ∧
      (peekRaw ⟨[1, 2], ((0 : Nat) : Int)⟩ ((4 : Nat) : Int) false).length
        = min 4 (ssLen ⟨[1, 2], ((0 : Nat) : Int)⟩) :=
  c6_amended [1, 2] 0 4 4

/-- C7 (code bug): `peekRaw` with `fillZeros=True` pads a short read with
`b'0'` — the ASCII digit byte 0x30 = 48 — rather than the zero byte 0x00
that the parameter name, the spec ("zero-fill") and the single caller (a
zero-padded `u16` table read in `za_lib.py`) all require.  Evaluating the
code on an empty buffer: every padding byte is 48. -/
theorem c7_bug_eval (n : Nat) :
    peekRaw ⟨([] : List Byte), (0 : Int)⟩ (n : Int) true = List.replicate n 48 := by
  cases n with
  | zero => rfl
  | succ m =>
    simp [peekRaw, pyslice, pyIdx]

/-- C10: `takeRaw` always advances the cursor by exactly `count` (with or
without zero-padding); once a read has overrun the buffer the remaining
count is 0 and every later raw read without padding yields the empty byte
string. -/
theorem c10_cursor (data : List Byte) (c count : Nat) (fz : Bool)
    (hover : ssLen ⟨data, (c : Int)⟩ < count) :
    (takeRaw ⟨data, (c : Int)⟩ (count : Int) fz).2.cursor = (c : Int) + count ∧
      ssLen (takeRaw ⟨data, (c : Int)⟩ (count : Int) fz).2 = 0 ∧
      ∀ m : Nat,
        peekRaw (takeRaw ⟨data, (c : Int)⟩ (count : Int) fz).2 (m : Int) false
          = [] := by
  refine ⟨rfl, ?_, ?_⟩
  · simp only [takeRaw, ssLen] at *
    omega
  · intro m
    have hc : (c : Int) + (count : Int) = ((c + count : Nat) : Int) := by
      push_cast; ring
    simp only [takeRaw, hc]
    rw [ssLen_coe] at hover
    have := length_peekRaw_noFill data (c + count) m
    rw [peekRaw_noFill_coe]
    apply List.eq_nil_of_length_eq_zero
    rw [length_sliceN]
    omega

/-- C10 witness: a concrete overrunning read on a two-byte buffer. -/
theorem c10_witness :
    ((takeRaw ⟨[5, 6], ((0 : Nat) : Int)⟩ ((7 : Nat) : Int) false).2.cursor
        = ((0 : Nat) : Int) + (7 : Nat)) ∧
      ssLen (takeRaw ⟨[5, 6], ((0 : Nat) : Int)⟩ ((7 : Nat) : Int) false).2 = 0 ∧
      ∀ m : Nat,
        peekRaw (takeRaw ⟨[5, 6], ((0 : Nat) : Int)⟩ ((7 : Nat) : Int) false).2
          (m : Int) false = [] :=
  c10_cursor [5, 6] 0 7 false (by decide)

/-! ### Claim C9: sector payload lengths -/

/-- C9 (counterexample): the claim says every successfully decoded Mode-2
sector's payload length is exactly 2048 or 2324.  The constructor never
validates `rawData`'s length: an 8-byte capture whose two subheader
copies agree decodes successfully (here with `submode = 0x20`, form 2)
and its payload is empty — length 0, neither 2048 nor 2324. -/
theorem c9_counterexample :
    (cdiSectorInit false [1, 2, 32, 4, 1, 2, 32, 4]).map
        (fun r => r.data.length) = some 0 ∧
      (0 : Nat) ≠ 2048 ∧ (0 : Nat) ≠ 2324 := by
  refine ⟨rfl, by decide, by decide⟩

/-- C9 (amended): a Mode-1 sector leaves every Mode-2-only field unset;
a successfully decoded Mode-2 sector has `form ∈ {1, 2}` and its payload
is `rawData[8:8+2048]` (form 1) or `rawData[8:8+2324]` (form 2), whose
length is exactly 2048 resp. 2324 *provided* `rawData` holds at least
`8 + 2048` resp. `8 + 2324` bytes; shorter captures decode successfully
with a truncated payload. -/
theorem c9_amended (raw : List Byte) (r : CdiSector) :
    (cdiSectorInit true raw = some r →
      r.file = none ∧ r.channel = none ∧ r.coding = none ∧ r.isEof = none ∧
      r.isRealtime = none ∧ r.form = none ∧ r.isTrigger = none ∧
      r.kind = none ∧ r.isEndOfRecord = none) ∧
    (cdiSectorInit false raw = some r →
      (r.form = some 1 ∨ r.form = some 2) ∧
      (r.form = some 1 → r.data = sliceN raw 8 2056) ∧
      (r.form = some 2 → r.data = sliceN raw 8 2332) ∧
      (r.form = some 1 → 2056 ≤ raw.length → r.data.length = 2048) ∧
      (r.form = some 2 → 2332 ≤ raw.length → r.data.length = 2324)) := by
  constructor
  · intro h
    simp only [cdiSectorInit, if_true] at h
    cases h
    exact ⟨rfl, rfl, rfl, rfl, rfl, rfl, rfl, rfl, rfl⟩
  · intro h
    simp only [cdiSectorInit, Bool.false_eq_true, if_false, ite_false] at h
    split at h
    case isFalse => exact absurd h (by simp)
    case isTrue hdup =>
      cases h0 : pyByteAt raw 0 with
      | none => rw [h0] at h; exact absurd h (by simp)
      | some f =>
      rw [h0] at h
      cases h1 : pyByteAt raw 1 with
      | none => rw [h1] at h; exact absurd h (by simp)
      | some ch =>
      rw [h1] at h
      cases h2 : pyByteAt raw 2 with
      | none => rw [h2] at h; exact absurd h (by simp)
      | some submode =>
      rw [h2] at h
      cases h3 : pyByteAt raw 3 with
      | none => rw [h3] at h; exact absurd h (by simp)
      | some cod =>
      rw [h3] at h
      simp only at h
      cases hk : kindOfSubmode submode with
      | none => rw [hk] at h; exact absurd h (by simp)
      | some k3 =>
          rw [hk] at h
          simp only [Option.some.injEq] at h
          subst h
          have hland : submode.land 32 ≤ 32 := Nat.and_le_right
          have hform : submode.land 32 / 32 = 0 ∨ submode.land 32 / 32 = 1 := by
            omega
          constructor
          · rcases hform with hf | hf <;> simp [hf]
          refine ⟨?_, ?_, ?_, ?_⟩
          · intro hf1
            simp only [Option.some.injEq] at hf1
            simp [show submode.land 32 / 32 + 1 = 1 by omega, hf1]
          · intro hf2
            simp only [Option.some.injEq] at hf2
            have : ¬ (submode.land 32 / 32 + 1 = 1) := by omega
            simp [this]
          · intro hf1 hlen
            simp only [Option.some.injEq] at hf1
            simp only [show (submode.land 32 / 32 + 1 = 1) from by omega, if_pos]
            rw [length_sliceN]
            omega
          · intro hf2 hlen
            simp only [Option.some.injEq] at hf2
            have hne : ¬ (submode.land 32 / 32 + 1 = 1) := by omega
            simp only [hne, if_neg, ite_false]
            rw [length_sliceN]
            omega

set_option maxRecDepth 4000 in
/-- C9 witness: the amended statement instantiated on the concrete
2056-byte form-1 capture gives a payload of exactly 2048 bytes. -/
theorem c9_witness : c9secForm1.data.length = 2048 := by
  have hlen : c9rawForm1.length = 2056 := by
    rw [c9rawForm1, List.length_append, List.length_replicate]
    rfl
  have h := (c9_amended c9rawForm1 c9secForm1).2 (by rfl)
  exact h.2.2.2.1 rfl (by rw [hlen])

/-- C1 (counterexample): with start indices `[0, 5, 0xFFFF, 12]` and a
20-entry size array the claim predicts slices `[0,5)`, `[5,12)`, `[]`,
`[12,20)`.  The code instead gives folder 1 `[5,20)` (the sentinel next
index is replaced by the array end, not skipped past) and then *returns*
at folder 2, leaving folders 2 and 3 without any sizes. -/
theorem c1_counterexample :
    (handleSizeArray MKind.v (List.range 20) c1folders).map (sizesOfK MKind.v)
      ≠ [sliceN (List.range 20) 0 5, sliceN (List.range 20) 5 12, [],
         sliceN (List.range 20) 12 20] := by
  decide

/-- C1 (amended): over the blockOffset-sorted folders, a folder at
position `i` keeps its previous (empty) size list as soon as any folder
at position `≤ i` carries the `0xFFFF` sentinel (the loop returns there);
otherwise it receives the sub-range of the shared size array from its own
start index up to the immediately next folder's start index, where a next
index of `0xFFFF` (or no next folder) means the array's end — the
sentinel is never skipped past. -/
theorem c1_amended (k : MKind) (sizes : List Byte) (fs : List RFolder)
    (i : Nat) (hi : i < fs.length) :
    (handleSizeArray k sizes fs)[i]? = some
      (if (fs.take (i + 1)).any (fun f => getSizeIndexK k f == 65535) then fs[i]
       else setSizesK k fs[i]
         (sliceN sizes (getSizeIndexK k fs[i]) (sizeEndIndex k sizes fs i))) := by
  induction fs generalizing i with
  | nil => exact absurd hi (by simp)
  | cons f rest ih =>
    by_cases hf : getSizeIndexK k f = 65535
    · rw [show handleSizeArray k sizes (f :: rest) = f :: rest from by
        simp [handleSizeArray, hf]]
      have hcond : ((f :: rest).take (i + 1)).any
          (fun f => getSizeIndexK k f == 65535) = true := by
        cases i <;> simp [List.any_cons, hf]
      rw [if_pos hcond]
      exact List.getElem?_eq_getElem hi
    · cases i with
      | zero =>
        have hcondn : ¬ (((f :: rest).take 1).any
            (fun f => getSizeIndexK k f == 65535) = true) := by
          simp only [List.take_succ_cons, List.take_zero, List.any_cons,
            List.any_nil, Bool.or_false, beq_iff_eq]
          exact hf
        rw [if_neg hcondn]
        simp only [List.getElem_cons_zero]
        cases rest with
        | nil => simp [handleSizeArray, hf, sizeEndIndex]
        | cons g rest2 => simp [handleSizeArray, hf, sizeEndIndex]
      | succ j =>
        have hj : j < rest.length := by simpa using hi
        have hstep : (handleSizeArray k sizes (f :: rest))[j + 1]?
            = (handleSizeArray k sizes rest)[j]? := by
          simp only [handleSizeArray, if_neg hf]
          exact List.getElem?_cons_succ
        rw [hstep, ih j hj]
        have hcond : ((f :: rest).take (j + 2)).any
            (fun f => getSizeIndexK k f == 65535)
            = (rest.take (j + 1)).any (fun f => getSizeIndexK k f == 65535) := by
          simp [List.any_cons, hf]
        have hget : (f :: rest)[j + 1] = rest[j] := List.getElem_cons_succ ..
        have hend : sizeEndIndex k sizes (f :: rest) (j + 1)
            = sizeEndIndex k sizes rest j := by
          simp [sizeEndIndex, List.getElem?_cons_succ]
        rw [hcond, hget, hend]

/-- C1 witness: the amended statement instantiated at folder 1 of the
claim's scenario — it receives `sizes[5:20]`, the whole tail of the
array. -/
theorem c1_witness :
    (handleSizeArray MKind.v (List.range 20) c1folders)[1]?
      = some (setSizesK MKind.v (c1f 1 5) (sliceN (List.range 20) 5 20)) := by
  rw [c1_amended MKind.v (List.range 20) c1folders 1 (by decide)]
  decide

/-! ### Claim C2: contiguous, non-overlapping folder sector ranges -/

theorem sliceN_append_drop (l : List α) (a b : Nat) (h : a ≤ b) :
    sliceN l a b ++ l.drop b = l.drop a := by
  simp only [sliceN]
  rcases Nat.le_total a l.length with han | han
  · conv_rhs => rw [← List.take_append_drop b l]
    rw [List.drop_append_eq_append_drop]
    have : a - (l.take b).length = 0 := by
      simp only [List.length_take]
      omega
    rw [this, List.drop_zero]
  · rw [List.drop_eq_nil_of_le han,
      List.drop_eq_nil_of_le (le_trans han h),
      List.drop_eq_nil_of_le (by simp only [List.length_take]; omega)]
    rfl

theorem assignSectors_length (l : List RFolder) (secs : List CdiSector) :
    (assignSectors l secs).length = l.length := by
  induction l with
  | nil => rfl
  | cons f t ih =>
    cases t with
    | nil => rfl
    | cons g rest =>
      simpa [assignSectors] using ih

theorem assignSectors_get (l : List RFolder) (secs : List CdiSector) :
    ∀ i g1 g2, l[i]? = some g1 → l[i + 1]? = some g2 →
      (assignSectors l secs)[i]? = some (sliceN secs g1.blockOffset g2.blockOffset) := by
  induction l with
  | nil => intro i g1 g2 h1; simp at h1
  | cons f t ih =>
    intro i g1 g2 h1 h2
    cases t with
    | nil =>
      exfalso
      cases i <;> simp at h2
    | cons g rest =>
      cases i with
      | zero =>
        simp only [List.getElem?_cons_zero, Option.some.injEq] at h1
        simp only [List.getElem?_cons_succ, List.getElem?_cons_zero,
          Option.some.injEq] at h2
        subst h1
        subst h2
        rw [show assignSectors (f :: g :: rest) secs
            = sliceN secs f.blockOffset g.blockOffset
              :: assignSectors (g :: rest) secs from rfl]
        exact List.getElem?_cons_zero
      | succ j =>
        simp only [List.getElem?_cons_succ] at h1 h2
        simpa [assignSectors] using
          ih j g1 g2 h1 (List.getElem?_cons_succ.trans h2)

theorem assignSectors_getLast (l : List RFolder) :
    ∀ (f fLast : RFolder) (secs : List CdiSector),
      (f :: l).getLast? = some fLast →
      (assignSectors (f :: l) secs).getLast? = some (secs.drop fLast.blockOffset) := by
  induction l with
  | nil =>
    intro f fLast secs hl
    simp only [List.getLast?_singleton, Option.some.injEq] at hl
    subst hl
    rfl
  | cons g rest ih =>
    intro f fLast secs hl
    rw [List.getLast?_cons_cons] at hl
    have hrec := ih g fLast secs hl
    have hshape : assignSectors (f :: g :: rest) secs
        = sliceN secs f.blockOffset g.blockOffset :: assignSectors (g :: rest) secs := rfl
    rw [hshape]
    cases hx : assignSectors (g :: rest) secs with
    | nil =>
      exfalso
      have := assignSectors_length (g :: rest) secs
      rw [hx] at this
      simp at this
    | cons y ys =>
      rw [hx] at hrec
      rw [List.getLast?_cons_cons]
      exact hrec

theorem assignSectors_flatten (l : List RFolder) :
    ∀ (f : RFolder) (secs : List CdiSector),
      List.Chain' (fun x y => x.blockOffset ≤ y.blockOffset) (f :: l) →
      (assignSectors (f :: l) secs).flatten = secs.drop f.blockOffset := by
  induction l with
  | nil =>
    intro f secs _
    simp [assignSectors]
  | cons g rest ih =>
    intro f secs hch
    rw [List.chain'_cons] at hch
    have hshape : assignSectors (f :: g :: rest) secs
        = sliceN secs f.blockOffset g.blockOffset :: assignSectors (g :: rest) secs := rfl
    rw [hshape, List.flatten_cons, ih g secs hch.2]
    exact sliceN_append_drop secs f.blockOffset g.blockOffset hch.1

/-- C2: after `ResourceFileSystem.__init__` sorts the folders by
`blockOffset`, the per-folder sector ranges are contiguous and
non-overlapping: each folder's slice ends exactly at the next sorted
folder's `blockOffset` where the next folder's slice starts, the last
folder's range runs to the end of the owning file's sector list, and the
ranges concatenate, in order and without overlap, to the file's sector
list from the first folder's `blockOffset` on. -/
theorem c2_folder_ranges (fs : List RFolder) (secs : List CdiSector)
    (f0 : RFolder) (rest : List RFolder)
    (hs : sortFolders fs = f0 :: rest) :
    (assignSectors (f0 :: rest) secs).length = (f0 :: rest).length ∧
      (∀ i g1 g2, (f0 :: rest)[i]? = some g1 → (f0 :: rest)[i + 1]? = some g2 →
        (assignSectors (f0 :: rest) secs)[i]?
          = some (sliceN secs g1.blockOffset g2.blockOffset)) ∧
      (∀ fLast, (f0 :: rest).getLast? = some fLast →
        (assignSectors (f0 :: rest) secs).getLast?
          = some (secs.drop fLast.blockOffset)) ∧
      (assignSectors (f0 :: rest) secs).flatten = secs.drop f0.blockOffset := by
  have htrans : ∀ a b c : RFolder,
      blockLe a b = true → blockLe b c = true → blockLe a c = true := by
    intro a b c hab hbc
    simp only [blockLe, decide_eq_true_eq] at *
    omega
  have htotal : ∀ a b : RFolder, (blockLe a b || blockLe b a) = true := by
    intro a b
    simp only [blockLe, Bool.or_eq_true, decide_eq_true_eq]
    omega
  have hpw : List.Pairwise (fun a b => blockLe a b = true) (fs.mergeSort blockLe) :=
    List.sorted_mergeSort htrans htotal fs
  rw [show fs.mergeSort blockLe = sortFolders fs from rfl, hs] at hpw
  have hch : List.Chain' (fun x y : RFolder => x.blockOffset ≤ y.blockOffset)
      (f0 :: rest) := by
    refine List.Pairwise.chain' (hpw.imp ?_)
    intro a b hab
    simpa [blockLe] using hab
  exact ⟨assignSectors_length _ _, assignSectors_get _ _,
    fun fLast hl => assignSectors_getLast rest f0 fLast secs hl,
    assignSectors_flatten rest f0 secs hch⟩

/-- C2 witness: the theorem instantiated on three concrete folders (with
block offsets 3, 0, 1) over a five-sector file. -/
theorem c2_witness :
    (assignSectors (c1f 0 0 :: [c1f 1 0, c1f 3 0]) (List.replicate 5 c9secForm1)).length
        = (c1f 0 0 :: [c1f 1 0, c1f 3 0]).length ∧
      (∀ i g1 g2, (c1f 0 0 :: [c1f 1 0, c1f 3 0])[i]? = some g1 →
        (c1f 0 0 :: [c1f 1 0, c1f 3 0])[i + 1]? = some g2 →
        (assignSectors (c1f 0 0 :: [c1f 1 0, c1f 3 0]) (List.replicate 5 c9secForm1))[i]?
          = some (sliceN (List.replicate 5 c9secForm1) g1.blockOffset g2.blockOffset)) ∧
      (∀ fLast, (c1f 0 0 :: [c1f 1 0, c1f 3 0]).getLast? = some fLast →
        (assignSectors (c1f 0 0 :: [c1f 1 0, c1f 3 0]) (List.replicate 5 c9secForm1)).getLast?
          = some ((List.replicate 5 c9secForm1).drop fLast.blockOffset)) ∧
      (assignSectors (c1f 0 0 :: [c1f 1 0, c1f 3 0]) (List.replicate 5 c9secForm1)).flatten
        = (List.replicate 5 c9secForm1).drop (c1f 0 0).blockOffset :=
  c2_folder_ranges c2folders (List.replicate 5 c9secForm1) (c1f 0 0) [c1f 1 0, c1f 3 0]
    (by simp +decide [sortFolders, c2folders, c1f, List.mergeSort, blockLe])

/-! ### Claim C8: record extraction within the kind-filtered sectors -/

/-- C8: `getRecord(N, kind)` returns exactly the concatenated payloads of
the sector range `[sum(sizes[0..N)), sum(sizes[0..N]))` taken inside this
folder's sectors filtered to the requested payload kind — sectors of
other kinds interleaved in the folder are skipped, not counted. -/
theorem c8_record (f : RFolder) (index : Nat) (k : MKind)
    (hi : index < (sizesOfK k f).length) :
    getRecord f index k = some
      (((sliceN (f.sectors.filter
            (fun s => (some (kindOfM k)).isNone || some (kindOfM k) == s.kind))
          ((sizesOfK k f).take index).sum
          (((sizesOfK k f).take (index + 1)).sum)).map CdiSector.data).flatten) := by
  have hg : (sizesOfK k f)[index]? = some ((sizesOfK k f)[index]) :=
    List.getElem?_eq_getElem hi
  unfold getRecord
  simp only [hg]
  simp only [getBytes, Option.some.injEq]
  rw [List.sum_take_succ _ _ hi]

/-- C8 witness: video record 1 of the fixture folder is the fourth sector's
payload `[4]` — the interleaved audio sector is skipped, not counted. -/
theorem c8_witness : getRecord c8folder 1 MKind.v = some [4] := by
  rw [c8_record c8folder 1 MKind.v (by decide)]
  decide

/-! ### Claim C5: PointerArray decoding -/

theorem peekRaw_noFill (s : SStream) (count : Int) :
    peekRaw s count false = pyslice s.data s.cursor (s.cursor + count) := by
  simp [peekRaw]

theorem takeU32_snd (s : SStream) (v : Nat) (s' : SStream)
    (h : takeU32 s = some (v, s')) : s' = ⟨s.data, s.cursor + 4⟩ := by
  cases hb : peekBytes s 4 with
  | none =>
    simp only [takeU32, hb, Option.map_none'] at h
    exact Option.noConfusion h
  | some bs =>
    simp only [takeU32, hb, Option.map_some', Option.some.injEq] at h
    exact (congrArg Prod.snd h).symm

theorem takeNU32_inv (n : Nat) :
    ∀ (data : List Byte) (c : Int) (offs : List Nat) (s' : SStream),
      takeNU32 n ⟨data, c⟩ = some (offs, s') →
      offs.length = n ∧ s' = ⟨data, c + 4 * (n : Int)⟩ := by
  induction n with
  | zero =>
    intro data c offs s' h
    simp only [takeNU32, Option.some.injEq] at h
    obtain ⟨h1, h2⟩ := Prod.mk.inj h.symm
    subst h1
    subst h2
    refine ⟨rfl, ?_⟩
    have : c + 4 * ((0 : Nat) : Int) = c := by norm_num
    rw [this]
  | succ m ih =>
    intro data c offs s' h
    rw [takeNU32] at h
    cases hu : takeU32 ⟨data, c⟩ with
    | none => rw [hu] at h; simp at h
    | some p =>
      rw [hu] at h
      obtain ⟨v, s2⟩ := p
      have hs2 : s2 = ⟨data, c + 4⟩ := takeU32_snd _ _ _ hu
      subst hs2
      simp only at h
      cases hr : takeNU32 m ⟨data, c + 4⟩ with
      | none => rw [hr] at h; simp at h
      | some q =>
        rw [hr] at h
        obtain ⟨vs, s3⟩ := q
        obtain ⟨hl, hs3⟩ := ih data (c + 4) vs s3 hr
        simp only [Option.some.injEq] at h
        obtain ⟨ho, hs⟩ := Prod.mk.inj h.symm
        subst ho
        subst hs
        refine ⟨by simp [hl], ?_⟩
        rw [hs3]
        have : c + 4 + 4 * (m : Int) = c + 4 * ((m + 1 : Nat) : Int) := by
          push_cast
          ring
        rw [this]

theorem paElems_length (offs : List Nat) :
    ∀ s : SStream, (paElems s offs).length = max 1 offs.length := by
  induction offs with
  | nil => intro s; rfl
  | cons o1 tl ih =>
    intro s
    cases tl with
    | nil => rfl
    | cons o2 rest =>
      have hstep := ih (takeFork s ((o2 : Int) - (o1 : Int))).2
      have hshape : paElems s (o1 :: o2 :: rest)
          = (takeFork s ((o2 : Int) - (o1 : Int))).1
            :: paElems (takeFork s ((o2 : Int) - (o1 : Int))).2 (o2 :: rest) := rfl
      rw [hshape, List.length_cons, hstep]
      simp only [List.length_cons]
      omega

theorem paElems_get (offs : List Nat) :
    ∀ (data : List Byte) (q : Int) (o0 : Nat), offs.head? = some o0 →
      ∀ (i o1 o2 : Nat), offs[i]? = some o1 → offs[i + 1]? = some o2 →
        (paElems ⟨data, q + (o0 : Int)⟩ offs)[i]?
          = some ⟨pyslice data (q + (o1 : Int)) (q + (o2 : Int)), 0⟩ := by
  induction offs with
  | nil => intro data q o0 h0; simp at h0
  | cons oh tl ih =>
    intro data q o0 h0 i o1 o2 h1 h2
    rw [List.head?_cons] at h0
    obtain rfl := Option.some.inj h0
    cases tl with
    | nil =>
      exfalso
      cases i <;> simp at h2
    | cons o2h rest =>
      have hshape : paElems ⟨data, q + (oh : Int)⟩ (oh :: o2h :: rest)
          = (takeFork ⟨data, q + (oh : Int)⟩ ((o2h : Int) - (oh : Int))).1
            :: paElems (takeFork ⟨data, q + (oh : Int)⟩ ((o2h : Int) - (oh : Int))).2
                 (o2h :: rest) := rfl
      have hstream : (takeFork ⟨data, q + (oh : Int)⟩ ((o2h : Int) - (oh : Int))).2
          = ⟨data, q + (o2h : Int)⟩ := by
        simp only [takeFork, takeRaw]
        have : q + (oh : Int) + ((o2h : Int) - (oh : Int)) = q + (o2h : Int) := by
          ring
        rw [this]
      cases i with
      | zero =>
        rw [List.getElem?_cons_zero] at h1
        obtain rfl := Option.some.inj h1
        have h2' := (@List.getElem?_cons_succ _ oh 0 (o2h :: rest)).symm.trans h2
        rw [List.getElem?_cons_zero] at h2'
        obtain rfl := Option.some.inj h2'
        rw [hshape, List.getElem?_cons_zero]
        have hfork : (takeFork ⟨data, q + (oh : Int)⟩ ((o2h : Int) - (oh : Int))).1
            = ⟨peekRaw ⟨data, q + (oh : Int)⟩ ((o2h : Int) - (oh : Int)) false, 0⟩ := rfl
        rw [hfork, peekRaw_noFill]
        have harith : q + (oh : Int) + ((o2h : Int) - (oh : Int)) = q + (o2h : Int) := by
          ring
        rw [harith]
      | succ j =>
        have h1' := (@List.getElem?_cons_succ _ oh j (o2h :: rest)).symm.trans h1
        have h2' := (@List.getElem?_cons_succ _ oh (j + 1) (o2h :: rest)).symm.trans h2
        rw [hshape, List.getElem?_cons_succ, hstream]
        exact ih data q o2h rfl j o1 o2 h1' h2'

theorem paElems_last (offs : List Nat) :
    ∀ (data : List Byte) (q : Int) (o0 : Nat), offs.head? = some o0 →
      ∀ oL, offs.getLast? = some oL →
        (paElems ⟨data, q + (o0 : Int)⟩ offs).getLast?
          = some (ssFork ⟨data, q + (oL : Int)⟩ 0) := by
  induction offs with
  | nil => intro data q o0 h0; simp at h0
  | cons oh tl ih =>
    intro data q o0 h0 oL hl
    simp only [List.head?_cons, Option.some.injEq] at h0
    subst h0
    cases tl with
    | nil =>
      simp only [List.getLast?_singleton, Option.some.injEq] at hl
      subst hl
      rfl
    | cons o2h rest =>
      rw [List.getLast?_cons_cons] at hl
      have hstream : (takeFork ⟨data, q + (oh : Int)⟩ ((o2h : Int) - (oh : Int))).2
          = ⟨data, q + (o2h : Int)⟩ := by
        simp only [takeFork, takeRaw]
        have : q + (oh : Int) + ((o2h : Int) - (oh : Int)) = q + (o2h : Int) := by
          ring
        rw [this]
      have hrec := ih data q o2h rfl oL hl
      have hshape : paElems ⟨data, q + (oh : Int)⟩ (oh :: o2h :: rest)
          = (takeFork ⟨data, q + (oh : Int)⟩ ((o2h : Int) - (oh : Int))).1
            :: paElems (takeFork ⟨data, q + (oh : Int)⟩ ((o2h : Int) - (oh : Int))).2
                 (o2h :: rest) := rfl
      rw [hshape, hstream]
      cases hx : paElems (⟨data, q + (o2h : Int)⟩ : SStream) (o2h :: rest) with
      | nil =>
        exfalso
        have hL := paElems_length (o2h :: rest) (⟨data, q + (o2h : Int)⟩ : SStream)
        rw [hx] at hL
        simp at hL
      | cons y ys =>
        rw [hx] at hrec
        rw [List.getLast?_cons_cons]
        exact hrec

/-- C5 (counterexample): the claim says `unpackPointerArray` returns
exactly `count` elements for every input.  On a stream of 8 zero bytes it
decodes `count = 0` but returns 1 element (the unconditional final
`stream.fork()` holding the remainder). -/
theorem c5_counterexample :
    ¬ ((unpackPointerArray ⟨List.replicate 8 0, (0 : Int)⟩).map
        (fun p => p.elements.length) = some 0) := by
  decide

/-- C5 (amended): the decode reads `(count, trailingValue)` and `count`
4-byte offsets; it returns `max 1 count` elements — exactly `count` when
`count ≥ 1` but one remainder element when `count = 0`.  Element `i`
(for `i < count - 1`) is the byte range of width `offsets[i+1] -
offsets[i]` consumed sequentially from the position immediately after the
offset table, the final element is a fork holding whatever remains, and
`trailingValue` is stored unvalidated in `unusedPointer`. -/
theorem c5_amended (data : List Byte) (c : Int) (r : PointerArray)
    (hdec : unpackPointerArray ⟨data, c⟩ = some r) :
    ∃ (cnt unused : Nat) (offs : List Nat),
      takeU32 ⟨data, c⟩ = some (cnt, ⟨data, c + 4⟩) ∧
      takeU32 ⟨data, c + 4⟩ = some (unused, ⟨data, c + 8⟩) ∧
      takeNU32 cnt ⟨data, c + 8⟩ = some (offs, ⟨data, c + 8 + 4 * (cnt : Int)⟩) ∧
      offs.length = cnt ∧
      r.unusedPointer = unused ∧
      r.elements = paElems ⟨data, c + 8 + 4 * (cnt : Int)⟩ offs ∧
      r.elements.length = max 1 cnt ∧
      (∀ (o0 i o1 o2 : Nat), offs.head? = some o0 →
        offs[i]? = some o1 → offs[i + 1]? = some o2 →
        r.elements[i]? = some
          ⟨pyslice data (c + 8 + 4 * (cnt : Int) - (o0 : Int) + (o1 : Int))
            (c + 8 + 4 * (cnt : Int) - (o0 : Int) + (o2 : Int)), 0⟩) ∧
      (∀ (o0 oL : Nat), offs.head? = some o0 → offs.getLast? = some oL →
        r.elements.getLast? = some
          (ssFork ⟨data, c + 8 + 4 * (cnt : Int) - (o0 : Int) + (oL : Int)⟩ 0)) := by
  rw [unpackPointerArray] at hdec
  cases h1 : takeU32 ⟨data, c⟩ with
  | none => rw [h1] at hdec; simp at hdec
  | some p1 =>
    rw [h1] at hdec
    obtain ⟨cnt, s1⟩ := p1
    have hs1 : s1 = ⟨data, c + 4⟩ := takeU32_snd _ _ _ h1
    subst hs1
    simp only at hdec
    cases h2 : takeU32 ⟨data, c + 4⟩ with
    | none => rw [h2] at hdec; simp at hdec
    | some p2 =>
      rw [h2] at hdec
      obtain ⟨unused, s2⟩ := p2
      have hs2 : s2 = ⟨data, c + 4 + 4⟩ := takeU32_snd _ _ _ h2
      subst hs2
      simp only at hdec
      have hc8 : c + 4 + 4 = c + 8 := by ring
      rw [hc8] at hdec
      cases h3 : takeNU32 cnt ⟨data, c + 8⟩ with
      | none => rw [h3] at hdec; simp at hdec
      | some p3 =>
        rw [h3] at hdec
        obtain ⟨offs, s3⟩ := p3
        obtain ⟨hlen, hs3⟩ := takeNU32_inv cnt data (c + 8) offs s3 h3
        subst hs3
        simp only [Option.some.injEq] at hdec
        subst hdec
        refine ⟨cnt, unused, offs, ?_, ?_, ?_, hlen, rfl, ?_, ?_, ?_, ?_⟩
        · rfl
        · rw [hc8]
        · exact h3
        · rfl
        · rw [← hlen]
          exact paElems_length offs _
        · intro o0 i o1 o2 h0 ha hb
          have hq : (c + 8 + 4 * (cnt : Int)) =
              (c + 8 + 4 * (cnt : Int) - (o0 : Int)) + (o0 : Int) := by ring
          have := paElems_get offs data (c + 8 + 4 * (cnt : Int) - (o0 : Int))
            o0 h0 i o1 o2 ha hb
          rw [← hq] at this
          exact this
        · intro o0 oL h0 hb
          have hq : (c + 8 + 4 * (cnt : Int)) =
              (c + 8 + 4 * (cnt : Int) - (o0 : Int)) + (o0 : Int) := by ring
          have := paElems_last offs data (c + 8 + 4 * (cnt : Int) - (o0 : Int))
            o0 h0 oL hb
          rw [← hq] at this
          exact this

/-- C5 witness: the amended statement instantiated on `c5data` — the
decoded count is 2 and exactly 2 elements come back. -/
theorem c5_witness : c5res.elements.length = max 1 2 := by
  obtain ⟨cnt, unused, offs, h1, _h2, _h3, _hlen, _hu, _he, hcount, _hmid, _hlast⟩ :=
    c5_amended c5data 0 c5res (by rfl)
  have h1' : takeU32 ⟨c5data, (0 : Int)⟩ = some (2, ⟨c5data, (0 : Int) + 4⟩) := by
    rfl
  have hcnt : cnt = 2 := by
    have hp := Option.some.inj (h1'.symm.trans h1)
    exact (congrArg Prod.fst hp).symm
  rw [hcnt] at hcount
  exact hcount

/-! ### Claim C3: Set-node element slicing -/

theorem ssSkip_nat (data : List Byte) (c n : Nat) :
    ssSkip ⟨data, (c : Int)⟩ (n : Int) = ⟨data, ((c + n : Nat) : Int)⟩ := by
  simp only [ssSkip, SStream.mk.injEq, true_and]
  have h0 : (0 : Int) ≤ (c : Int) + (n : Int) := by positivity
  rw [max_eq_right h0]
  push_cast
  ring

theorem restOf_mk_zero (l : List Byte) : restOf ⟨l, 0⟩ = l := by
  have h0 : (0 : Int) = ((0 : Nat) : Int) := rfl
  rw [restOf, h0, pyslice_coe]
  simp [sliceN]

theorem restOf_natCursor (data : List Byte) (m : Nat) :
    restOf ⟨data, (m : Int)⟩ = data.drop m := by
  rw [restOf, pyslice_coe]
  simp [sliceN]

theorem peekBytes_length (s : SStream) (n : Nat) (bs : List Byte)
    (h : peekBytes s n = some bs) : bs.length = n := by
  simp only [peekBytes] at h
  split at h
  case isTrue hl => exact (Option.some.inj h) ▸ hl
  case isFalse => exact Option.noConfusion h

theorem chunksToU32_length : (bs : List Byte) →
    (chunksToU32 bs).length = bs.length / 4
  | [] => rfl
  | [_] => by simp [chunksToU32]
  | [_, _] => by simp [chunksToU32]
  | [_, _, _] => by simp [chunksToU32]
  | a :: b :: c :: d :: rest => by
      simp only [chunksToU32, List.length_cons]
      rw [chunksToU32_length rest]
      omega

theorem buildSetElems_length (offs : List Nat) (ld : SStream) (lo bo : Nat) :
    (buildSetElems ld lo bo offs).length = offs.length := by
  induction offs with
  | nil => rfl
  | cons o tl ih =>
    cases tl with
    | nil =>
      simp only [buildSetElems]
      split <;> rfl
    | cons o2 rest =>
      simp only [buildSetElems, List.length_cons]
      rw [ih]
      simp

theorem buildSetElems_middle (offs : List Nat) (data : List Byte) (L lo bo : Nat) :
    ∀ (i o1 o2 : Nat), offs[i]? = some o1 → offs[i + 1]? = some o2 →
      (buildSetElems ⟨data, (L : Int)⟩ lo bo offs)[i]?
        = some ⟨sliceN data (L + o1) (L + o2), 0⟩ := by
  induction offs with
  | nil => intro i o1 o2 h1 _; simp at h1
  | cons oh tl ih =>
    intro i o1 o2 h1 h2
    cases tl with
    | nil =>
      exfalso
      cases i <;> simp at h2
    | cons o2h rest =>
      have hshape : buildSetElems ⟨data, (L : Int)⟩ lo bo (oh :: o2h :: rest)
          = (takeFork (ssSkip ⟨data, (L : Int)⟩ (oh : Int))
               ((o2h : Int) - (oh : Int))).1
            :: buildSetElems ⟨data, (L : Int)⟩ lo bo (o2h :: rest) := rfl
      cases i with
      | zero =>
        rw [List.getElem?_cons_zero] at h1
        obtain rfl := Option.some.inj h1
        have h2' := (@List.getElem?_cons_succ _ oh 0 (o2h :: rest)).symm.trans h2
        rw [List.getElem?_cons_zero] at h2'
        obtain rfl := Option.some.inj h2'
        rw [hshape, List.getElem?_cons_zero, ssSkip_nat]
        have hfork : (takeFork ⟨data, ((L + oh : Nat) : Int)⟩
              ((o2h : Int) - (oh : Int))).1
            = ⟨peekRaw ⟨data, ((L + oh : Nat) : Int)⟩
                ((o2h : Int) - (oh : Int)) false, 0⟩ := rfl
        rw [hfork, peekRaw_noFill]
        have harith : ((L + oh : Nat) : Int) + ((o2h : Int) - (oh : Int))
            = ((L + o2h : Nat) : Int) := by
          push_cast
          ring
        rw [show (⟨data, ((L + oh : Nat) : Int)⟩ : SStream).data = data from rfl,
          show (⟨data, ((L + oh : Nat) : Int)⟩ : SStream).cursor
            = ((L + oh : Nat) : Int) from rfl, harith, pyslice_coe]
      | succ j =>
        have h1' := (@List.getElem?_cons_succ _ oh j (o2h :: rest)).symm.trans h1
        have h2' := (@List.getElem?_cons_succ _ oh (j + 1) (o2h :: rest)).symm.trans h2
        rw [hshape, List.getElem?_cons_succ]
        exact ih j o1 o2 h1' h2'

theorem buildSetElems_last (offs : List Nat) (data : List Byte) (L lo bo : Nat) :
    ∀ oL, offs.getLast? = some oL →
      (buildSetElems ⟨data, (L : Int)⟩ lo bo offs).getLast?
        = some (if lo < bo
            then (⟨sliceN data (L + oL) (L + (bo - lo)), 0⟩ : SStream)
            else ⟨data, ((L + oL : Nat) : Int)⟩) := by
  induction offs with
  | nil => intro oL hl; simp at hl
  | cons oh tl ih =>
    intro oL hl
    cases tl with
    | nil =>
      rw [List.getLast?_singleton] at hl
      obtain rfl := Option.some.inj hl
      by_cases hlb : lo < bo
      · rw [show buildSetElems ⟨data, (L : Int)⟩ lo bo [oh]
            = (if lo < bo then
                [(takeFork (ssSkip ⟨data, (L : Int)⟩ (oh : Int))
                   ((bo : Int) - (lo : Int) - (oh : Int))).1]
               else [ssSkip ⟨data, (L : Int)⟩ (oh : Int)]) from rfl]
        rw [if_pos hlb, if_pos hlb, List.getLast?_singleton, ssSkip_nat]
        have hfork : (takeFork ⟨data, ((L + oh : Nat) : Int)⟩
              ((bo : Int) - (lo : Int) - (oh : Int))).1
            = ⟨peekRaw ⟨data, ((L + oh : Nat) : Int)⟩
                ((bo : Int) - (lo : Int) - (oh : Int)) false, 0⟩ := rfl
        rw [hfork, peekRaw_noFill]
        have harith : ((L + oh : Nat) : Int) + ((bo : Int) - (lo : Int) - (oh : Int))
            = ((L + (bo - lo) : Nat) : Int) := by
          push_cast [Nat.cast_sub hlb.le]
          ring
        rw [show (⟨data, ((L + oh : Nat) : Int)⟩ : SStream).data = data from rfl,
          show (⟨data, ((L + oh : Nat) : Int)⟩ : SStream).cursor
            = ((L + oh : Nat) : Int) from rfl, harith, pyslice_coe]
      · rw [show buildSetElems ⟨data, (L : Int)⟩ lo bo [oh]
            = (if lo < bo then
                [(takeFork (ssSkip ⟨data, (L : Int)⟩ (oh : Int))
                   ((bo : Int) - (lo : Int) - (oh : Int))).1]
               else [ssSkip ⟨data, (L : Int)⟩ (oh : Int)]) from rfl]
        rw [if_neg hlb, if_neg hlb, List.getLast?_singleton, ssSkip_nat]
    | cons o2h rest =>
      rw [List.getLast?_cons_cons] at hl
      have hrec := ih oL hl
      have hshape : buildSetElems ⟨data, (L : Int)⟩ lo bo (oh :: o2h :: rest)
          = (takeFork (ssSkip ⟨data, (L : Int)⟩ (oh : Int))
               ((o2h : Int) - (oh : Int))).1
            :: buildSetElems ⟨data, (L : Int)⟩ lo bo (o2h :: rest) := rfl
      rw [hshape]
      cases hx : buildSetElems ⟨data, (L : Int)⟩ lo bo (o2h :: rest) with
      | nil =>
        exfalso
        have hL := buildSetElems_length (o2h :: rest) ⟨data, (L : Int)⟩ lo bo
        rw [hx] at hL
        simp at hL
      | cons y ys =>
        rw [hx] at hrec
        rw [List.getLast?_cons_cons]
        exact hrec

theorem setDecode_inv (data : List Byte) (c : Nat) (r : TreeSet)
    (hdec : setDecode ⟨data, (c : Int)⟩ = some r) :
    r.elementOffsets.length = r.count ∧
    r.elements = buildSetElems ⟨data, ((c + r.listOffset : Nat) : Int)⟩
      r.listOffset r.baseOffset r.elementOffsets := by
  rw [setDecode] at hdec
  cases h1 : takeU32 ⟨data, (c : Int)⟩ with
  | none => rw [h1] at hdec; simp at hdec
  | some p1 =>
    rw [h1] at hdec
    obtain ⟨tag, s1⟩ := p1
    simp only at hdec
    cases h2 : takeU32 s1 with
    | none => rw [h2] at hdec; simp at hdec
    | some p2 =>
        rw [h2] at hdec
        obtain ⟨size, s2⟩ := p2
        simp only at hdec
        split at hdec
        case isFalse => exact absurd hdec (by simp)
        case isTrue htag =>
        cases h3 : takeU32 s2 with
        | none => rw [h3] at hdec; simp at hdec
        | some p3 =>
          rw [h3] at hdec
          obtain ⟨count, s3⟩ := p3
          simp only at hdec
          cases h4 : takeU32 s3 with
          | none => rw [h4] at hdec; simp at hdec
          | some p4 =>
            rw [h4] at hdec
            obtain ⟨baseOffset, s4⟩ := p4
            simp only at hdec
            cases h5 : takeU32 s4 with
            | none => rw [h5] at hdec; simp at hdec
            | some p5 =>
              rw [h5] at hdec
              obtain ⟨listOffset, s5⟩ := p5
              simp only at hdec
              cases h6 : (if count > 1 then
                    takeU32s (ssSkip ⟨data, (c : Int)⟩ (baseOffset : Int)) count
                  else if count = 1 then
                    (takeU32 (ssSkip ⟨data, (c : Int)⟩ (baseOffset : Int))).map
                      (fun p => ([p.1], p.2))
                  else some ([], ssSkip ⟨data, (c : Int)⟩ (baseOffset : Int))) with
              | none => rw [h6] at hdec; simp at hdec
              | some p6 =>
                rw [h6] at hdec
                obtain ⟨offs, s6⟩ := p6
                simp only [Option.some.injEq] at hdec
                subst hdec
                refine ⟨?_, ?_⟩
                · show offs.length = count
                  by_cases hgt : count > 1
                  · rw [if_pos hgt] at h6
                    simp only [takeU32s] at h6
                    cases hpb : peekBytes
                        (ssSkip ⟨data, (c : Int)⟩ (baseOffset : Int)) (4 * count) with
                    | none => rw [hpb] at h6; simp at h6
                    | some bs =>
                      rw [hpb] at h6
                      simp only [Option.map_some', Option.some.injEq] at h6
                      have hbs := peekBytes_length _ _ _ hpb
                      have hoffs : chunksToU32 bs = offs := congrArg Prod.fst h6
                      rw [← hoffs, chunksToU32_length, hbs]
                      omega
                  · rw [if_neg hgt] at h6
                    by_cases h1c : count = 1
                    · rw [if_pos h1c] at h6
                      cases htu : takeU32 (ssSkip ⟨data, (c : Int)⟩ (baseOffset : Int)) with
                      | none => rw [htu] at h6; simp at h6
                      | some q =>
                        rw [htu] at h6
                        simp only [Option.map_some', Option.some.injEq] at h6
                        have hoffs : [q.1] = offs := congrArg Prod.fst h6
                        rw [← hoffs, h1c]
                        rfl
                    · rw [if_neg h1c] at h6
                      have hoffs : ([] : List Nat) = offs :=
                        congrArg Prod.fst (Option.some.inj h6)
                      rw [← hoffs]
                      simp only [List.length_nil]
                      omega
                · rw [ssSkip_nat]

/-- C3: for a decoded Set node, element `i` starts at
`listOffset + offsets[i]` in the node's local frame (anchored at the
stream position `c` where the node begins): every non-last element is the
byte range up to `listOffset + offsets[i+1]`, of length
`offsets[i+1] - offsets[i]` whenever that range lies inside the buffer;
the last element ends at `baseOffset` (length
`baseOffset - listOffset - offsets[count-1]`) when
`listOffset < baseOffset`, and otherwise extends to the end of the
available buffer. -/
theorem c3_set_elements (data : List Byte) (c : Nat) (r : TreeSet)
    (hdec : setDecode ⟨data, (c : Int)⟩ = some r) (hcount : 1 ≤ r.count) :
    r.elementOffsets.length = r.count ∧
    r.elements.length = r.count ∧
    (∀ (i o1 o2 : Nat), r.elementOffsets[i]? = some o1 →
      r.elementOffsets[i + 1]? = some o2 →
      ∃ e, r.elements[i]? = some e ∧
        restOf e = sliceN data (c + r.listOffset + o1) (c + r.listOffset + o2) ∧
        (o1 ≤ o2 → c + r.listOffset + o2 ≤ data.length →
          (restOf e).length = o2 - o1)) ∧
    (∀ oL : Nat, r.elementOffsets.getLast? = some oL →
      ∃ e, r.elements.getLast? = some e ∧
        (r.listOffset < r.baseOffset →
          restOf e = sliceN data (c + r.listOffset + oL) (c + r.baseOffset) ∧
          (r.listOffset + oL ≤ r.baseOffset → c + r.baseOffset ≤ data.length →
            (restOf e).length = r.baseOffset - r.listOffset - oL)) ∧
        (¬ r.listOffset < r.baseOffset →
          restOf e = data.drop (c + r.listOffset + oL))) := by
  obtain ⟨hlen, helems⟩ := setDecode_inv data c r hdec
  refine ⟨hlen, ?_, ?_, ?_⟩
  · rw [helems, buildSetElems_length, hlen]
  · intro i o1 o2 h1 h2
    refine ⟨⟨sliceN data (c + r.listOffset + o1) (c + r.listOffset + o2), 0⟩, ?_, ?_, ?_⟩
    · rw [helems]
      have := buildSetElems_middle r.elementOffsets data (c + r.listOffset)
        r.listOffset r.baseOffset i o1 o2 h1 h2
      rw [this]
    · exact restOf_mk_zero _
    · intro hle hbound
      rw [restOf_mk_zero, length_sliceN]
      omega
  · intro oL hL
    by_cases hlb : r.listOffset < r.baseOffset
    · refine ⟨⟨sliceN data (c + r.listOffset + oL)
          (c + r.listOffset + (r.baseOffset - r.listOffset)), 0⟩, ?_, ?_, ?_⟩
      · rw [helems]
        have := buildSetElems_last r.elementOffsets data (c + r.listOffset)
          r.listOffset r.baseOffset oL hL
        rw [this, if_pos hlb]
      · intro _
        have hbo : c + r.listOffset + (r.baseOffset - r.listOffset)
            = c + r.baseOffset := by omega
        constructor
        · rw [restOf_mk_zero, hbo]
        · intro hle hbound
          rw [restOf_mk_zero, length_sliceN]
          omega
      · intro h
        exact absurd hlb h
    · refine ⟨⟨data, ((c + r.listOffset + oL : Nat) : Int)⟩, ?_, ?_, ?_⟩
      · rw [helems]
        have := buildSetElems_last r.elementOffsets data (c + r.listOffset)
          r.listOffset r.baseOffset oL hL
        rw [this, if_neg hlb]
      · intro h
        exact absurd h hlb
      · intro _
        exact restOf_natCursor data (c + r.listOffset + oL)

/-- C3 witness: both tie-break branches on concrete `count = 3` sets with
offsets `[0, 10, 25]` — the first two elements have lengths 10 and 15 in
either branch; the last has length 5 in the `listOffset < baseOffset`
fixture and is the 3-byte rest of the buffer in the other. -/
theorem c3_witness :
    (∃ e, c3resA.elements[0]? = some e ∧ (restOf e).length = 10) ∧
      (∃ e, c3resA.elements[1]? = some e ∧ (restOf e).length = 15) ∧
      (∃ e, c3resA.elements.getLast? = some e ∧ (restOf e).length = 5) ∧
      (∃ e, c3resB.elements[0]? = some e ∧ (restOf e).length = 10) ∧
      (∃ e, c3resB.elements[1]? = some e ∧ (restOf e).length = 15) ∧
      (∃ e, c3resB.elements.getLast? = some e ∧ restOf e = c3dataB.drop 57) := by
  obtain ⟨_, _, hmidA, hlastA⟩ :=
    c3_set_elements c3dataA 0 c3resA (by decide) (by decide)
  obtain ⟨_, _, hmidB, hlastB⟩ :=
    c3_set_elements c3dataB 0 c3resB (by decide) (by decide)
  refine ⟨?_, ?_, ?_, ?_, ?_, ?_⟩
  · obtain ⟨e, he, hr, hlen⟩ := hmidA 0 0 10 (by decide) (by decide)
    exact ⟨e, he, hlen (by decide) (by decide)⟩
  · obtain ⟨e, he, hr, hlen⟩ := hmidA 1 10 25 (by decide) (by decide)
    exact ⟨e, he, hlen (by decide) (by decide)⟩
  · obtain ⟨e, he, hpos, _⟩ := hlastA 25 (by decide)
    obtain ⟨hr, hlen⟩ := hpos (by decide)
    exact ⟨e, he, hlen (by decide) (by decide)⟩
  · obtain ⟨e, he, hr, hlen⟩ := hmidB 0 0 10 (by decide) (by decide)
    exact ⟨e, he, hlen (by decide) (by decide)⟩
  · obtain ⟨e, he, hr, hlen⟩ := hmidB 1 10 25 (by decide) (by decide)
    exact ⟨e, he, hlen (by decide) (by decide)⟩
  · obtain ⟨e, he, _, hneg⟩ := hlastB 25 (by decide)
    exact ⟨e, he, hneg (by decide)⟩

/-- C4 (counterexample): the claim says a Node decode fails whenever the
decoded name list and child list have different lengths.  On `c4data` the
child Set has 2 elements and the name Set 1, yet the decode *succeeds*,
silently dropping the second child: the combination loop only walks the
name list. -/
theorem c4_counterexample :
    parseFromStream 2 ⟨c4data, 0⟩
        = some (RTree.node 90 true [(RKey.name [97], RTree.base 7 0)]) ∧
      (setDecode ⟨sliceN c4data 20 64, 0⟩).map (fun t => t.elements.length)
        = some 2 ∧
      (setDecode ⟨c4data, (64 : Int)⟩).map (fun t => t.elements.length)
        = some 1 := by
  refine ⟨by rfl, by rfl, by rfl⟩

/-- C4 (amended): the name/child combination loop fails exactly when the
child list is shorter than the name list; when the child list is at least
as long, it pairs names with children positionally (a zip over the name
list) and any extra children are silently dropped — a longer child list
does not make the decode fail. -/
theorem c4_amended (names : List RKey) (children : List RTree) :
    (combineChildren names children = none ↔
        children.length < names.length) ∧
    (names.length ≤ children.length →
      combineChildren names children = some (names.zip children)) := by
  induction names generalizing children with
  | nil =>
    constructor
    · simp [combineChildren]
    · intro _
      simp [combineChildren]
  | cons nm ns ih =>
    cases children with
    | nil =>
      constructor
      · simp [combineChildren]
      · intro h
        simp at h
    | cons cc cs =>
      constructor
      · cases hc : combineChildren ns cs with
        | none =>
          have hlt := (ih cs).1.mp hc
          simp only [combineChildren, hc, List.length_cons]
          constructor
          · intro _
            omega
          · intro _
            trivial
        | some rest =>
          simp only [combineChildren, hc, List.length_cons]
          constructor
          · intro h
            exact Option.noConfusion h
          · intro h
            have : combineChildren ns cs = none := (ih cs).1.mpr (by omega)
            rw [hc] at this
            exact Option.noConfusion this
      · intro hle
        have h2 := (ih cs).2 (by simpa using Nat.le_of_succ_le_succ hle)
        simp only [combineChildren, h2]
        rfl

/-- C4 witness: the amended statement on a concrete equal-length pair —
2 names, 2 children, positional pairing. -/
theorem c4_witness :
    combineChildren [RKey.num 0, RKey.num 1] [RTree.base 7 0, RTree.base 7 1]
      = some [(RKey.num 0, RTree.base 7 0), (RKey.num 1, RTree.base 7 1)] := by
  have h := (c4_amended [RKey.num 0, RKey.num 1]
    [RTree.base 7 0, RTree.base 7 1]).2 (by decide)
  exact h

end ZAE
